import Mathlib

/-!
# Verification of the web-tester core pipeline

A shallow embedding, in Lean 4, of the core components of the `web-tester`
repository (`src/core/`): the knowledge store (`knowledge_manager.py`), the
retry primitive (`retry_handler.py`), the executor's payload application and
status classification (`executor.py`), the crawler's traversal loop
(`crawler.py`), and the scenario generator with its defensive response parsing
(`scenario_generator.py`).

Python dictionaries with a fixed set of optional keys are modelled as Lean
structures whose fields are `Option String`; `d.get(k)` returning `None` for a
missing key corresponds to the field being `none`.  Python strings are `String`
(lists of characters); `str.strip()`, `str.lower()`, substring tests and
`str.split` are re-implemented below over `List Char` so that all definitions
are executable and their behaviour matches CPython's on the character sets the
program manipulates (ASCII; `strip` trims the four common whitespace
characters).  File persistence is modelled by passing the store value in and
out; `time.strftime` timestamps are passed in as an explicit `now` argument.
-/

/-! ## Python-style string helpers -/

/-- The whitespace characters trimmed by our model of `str.strip()`. -/
def isWsChar (c : Char) : Bool :=
  c == ' ' || c == '\t' || c == '\n' || c == '\r'

/-- `str.strip()` on a character list: drop whitespace from both ends. -/
def pyStripChars (cs : List Char) : List Char :=
  ((cs.dropWhile isWsChar).reverse.dropWhile isWsChar).reverse

/-- Model of Python `s.strip()`. -/
def pyStrip (s : String) : String :=
  ⟨pyStripChars s.data⟩

/-- Model of Python `s.lower()` (character-wise ASCII lowering). -/
def pyLower (s : String) : String :=
  ⟨s.data.map Char.toLower⟩

/-- Model of Python slicing `s[:n]`. -/
def strTake (s : String) (n : Nat) : String :=
  ⟨s.data.take n⟩

/-- Does `pat` occur as a contiguous substring of the list? (Python `pat in s`.) -/
def listHasInfix (pat : List Char) : List Char → Bool
  | [] => pat.isEmpty
  | c :: rest => pat.isPrefixOf (c :: rest) || listHasInfix pat rest

/-- Model of Python `pat in s` on strings. -/
def hasSubstr (s pat : String) : Bool :=
  listHasInfix pat.data s.data

/-! ## Knowledge store data model (`core/knowledge_manager.py`)

A field descriptor dictionary as consumed by `_make_key` /
`update_field_result`.  Only the keys the knowledge manager reads are
modelled. -/

structure FieldDesc where
  tag : Option String := none
  name : Option String := none
  role : Option String := none
  placeholder : Option String := none
  selector : Option String := none
deriving DecidableEq, Repr

/-- The `meta` echo stored in a knowledge entry
(`{"tag": ..., "name": ..., "placeholder": ..., "role": ...}`). -/
structure FieldMeta where
  tag : Option String := none
  name : Option String := none
  placeholder : Option String := none
  role : Option String := none
deriving DecidableEq, Repr

/-- The `stats` counters of a knowledge entry. -/
structure Stats where
  total : Nat := 0
  success : Nat := 0
  fail : Nat := 0
deriving DecidableEq, Repr

/-- A test-case dictionary.  The same record shape covers the cases stored by
`update_field_result` (`payload`/`desc`/`type`/`first_seen`) and the cases
produced by the scenario generator (`payload`/`desc`/`type`/
`brief_justification`); absent keys are `none`. -/
structure TCase where
  payload : Option String := none
  desc : Option String := none
  typ : Option String := none
  first_seen : Option String := none
  brief : Option String := none
deriving DecidableEq, Repr

/-- A knowledge entry, as persisted per fingerprint key. -/
structure KEntry where
  kmeta : FieldMeta := {}
  cases : List TCase := []
  stats : Stats := {}
  updated : String := ""
deriving DecidableEq, Repr

/-- The knowledge store: the `"fields"` dictionary, as an insertion-ordered
association list from fingerprint key to entry. -/
structure Store where
  fields : List (String × KEntry) := []
deriving DecidableEq, Repr

/-- `(field.get(k) or "").lower().strip()` — the normalization applied by
`_make_key` to each of the four attributes. -/
def normalizeAttr (o : Option String) : String :=
  pyStrip (pyLower (o.getD ""))

/-- `_make_key(field)` (knowledge_manager.py, lines 30–35): the fingerprint
`f"{tag}|{name}|{role}|{ph}"` over the normalized attributes. -/
def _make_key (f : FieldDesc) : String :=
  normalizeAttr f.tag ++ "|" ++ normalizeAttr f.name ++ "|" ++ normalizeAttr f.role
    ++ "|" ++ normalizeAttr f.placeholder

/-- The normalized `(tag, name, role, placeholder)` quadruple of a field. -/
def normQuad (f : FieldDesc) : String × String × String × String :=
  (normalizeAttr f.tag, normalizeAttr f.name, normalizeAttr f.role,
    normalizeAttr f.placeholder)

/-- First-occurrence lookup in the ordered dictionary. -/
def lookupFields : List (String × KEntry) → String → Option KEntry
  | [], _ => none
  | p :: t, k => if p.1 == k then some p.2 else lookupFields t k

/-- Dictionary update: an existing key keeps its position (Python mutates the
entry obtained via `setdefault` in place), a fresh key is appended in
insertion order. -/
def setFields : List (String × KEntry) → String → KEntry → List (String × KEntry)
  | [], k, v => [(k, v)]
  | p :: t, k, v => if p.1 == k then (k, v) :: t else p :: setFields t k v

/-- Dictionary lookup `data["fields"].get(key)`. -/
def lookupStore (st : Store) (k : String) : Option KEntry :=
  lookupFields st.fields k

/-- Write-back of one entry under `key`. -/
def storeSet (st : Store) (k : String) (v : KEntry) : Store :=
  ⟨setFields st.fields k v⟩

/-- The fresh entry installed by `setdefault` for an unseen key. -/
def defaultEntry (field : FieldDesc) (now : String) : KEntry :=
  { kmeta := { tag := field.tag, name := field.name,
               placeholder := field.placeholder, role := field.role },
    cases := [], stats := {}, updated := now }

/-- The case record appended by `update_field_result`. -/
def mkStoredCase (scenario : TCase) (now : String) : TCase :=
  { payload := scenario.payload, desc := scenario.desc, typ := scenario.typ,
    first_seen := some now }

/-- An execution-result dictionary; `update_field_result` reads only
`result.get("status")`. -/
structure ExecResult where
  status : Option String := none
  messages : List String := []
deriving DecidableEq, Repr

/-- The in-place mutation `update_field_result` performs on the fetched entry:
append the case if its payload is new, bump `total` and `success`
(`status == "applied"`) or `fail`, refresh the timestamp. -/
def bumpEntry (scenario : TCase) (result : ExecResult) (now : String)
    (e : KEntry) : KEntry :=
  let cases :=
    if e.cases.any (fun c => c.payload == scenario.payload) then e.cases
    else e.cases ++ [mkStoredCase scenario now]
  let stats :=
    if result.status == some "applied" then
      { e.stats with total := e.stats.total + 1, success := e.stats.success + 1 }
    else
      { e.stats with total := e.stats.total + 1, fail := e.stats.fail + 1 }
  { e with cases := cases, stats := stats, updated := now }

/-- `update_field_result(field, scenario, result)` (knowledge_manager.py,
lines 53–74): load, fetch-or-create the entry for the field's fingerprint,
mutate it, save, and return `True`. -/
def update_field_result (field : FieldDesc) (scenario : TCase) (result : ExecResult)
    (now : String) (st : Store) : Store × Bool :=
  let key := _make_key field
  let e := (lookupStore st key).getD (defaultEntry field now)
  (storeSet st key (bumpEntry scenario result now e), true)

/-! ## Basic store lemmas -/

theorem lookupFields_setFields_self (l : List (String × KEntry)) (k : String)
    (v : KEntry) : lookupFields (setFields l k v) k = some v := by
  induction l with
  | nil => simp [setFields, lookupFields]
  | cons p t ih =>
    by_cases hp : p.1 == k
    · simp [setFields, lookupFields, hp]
    · simp [setFields, lookupFields, hp, ih]

theorem lookupFields_setFields_ne (l : List (String × KEntry)) (k k' : String)
    (v : KEntry) (hne : (k' == k) = false) :
    lookupFields (setFields l k v) k' = lookupFields l k' := by
  have hkk : (k == k') = false := by
    cases h : k == k' with
    | false => rfl
    | true =>
      have hk : k = k' := by simpa using h
      subst hk
      simp at hne
  induction l with
  | nil => simp [setFields, lookupFields, hkk]
  | cons p t ih =>
    by_cases hp : p.1 == k
    · have hpk : p.1 = k := by simpa using hp
      simp [setFields, lookupFields, hp, hpk, hkk]
    · simp [setFields, lookupFields, hp, ih]

theorem lookupStore_storeSet_self (st : Store) (k : String) (v : KEntry) :
    lookupStore (storeSet st k v) k = some v :=
  lookupFields_setFields_self st.fields k v

theorem lookupStore_storeSet_ne (st : Store) (k k' : String) (v : KEntry)
    (hne : (k' == k) = false) :
    lookupStore (storeSet st k v) k' = lookupStore st k' :=
  lookupFields_setFields_ne st.fields k k' v hne

/-! ## Fingerprint theorems (C3) -/

/-- `s.data = t.data` forces `s = t`. -/
theorem string_eq_of_data_eq {s t : String} (h : s.data = t.data) : s = t :=
  congrArg String.mk h

/-- Splitting at an unambiguous `'|'` separator: if neither left part contains
a bar, equal concatenations have equal parts. -/
theorem append_bar_inj {as as' bs bs' : List Char}
    (ha : as.any (fun c => c == '|') = false)
    (ha' : as'.any (fun c => c == '|') = false)
    (h : as ++ '|' :: bs = as' ++ '|' :: bs') : as = as' ∧ bs = bs' := by
  induction as generalizing as' with
  | nil =>
    cases as' with
    | nil => simpa using h
    | cons c t =>
      simp only [List.nil_append, List.cons_append, List.cons.injEq] at h
      simp [← h.1] at ha'
  | cons c t ih =>
    cases as' with
    | nil =>
      simp only [List.cons_append, List.nil_append, List.cons.injEq] at h
      simp [h.1] at ha
    | cons c' t' =>
      simp only [List.cons_append, List.cons.injEq] at h
      obtain ⟨hc, hrest⟩ := h
      simp only [List.any_cons, Bool.or_eq_false_iff] at ha ha'
      obtain ⟨hs, hbs⟩ := ih ha.2 ha'.2 hrest
      exact ⟨by rw [hc, hs], hbs⟩

/-- A normalized attribute value contains no `'|'` character. -/
def noBar (s : String) : Bool :=
  !(s.data.any (fun c => c == '|'))

/-- C3 (counterexample): the claim "`_make_key` returns distinct keys whenever
the normalized `(tag, name, role, placeholder)` quadruples differ" fails at the
concrete pair of fields `{tag: "a|b"}` and `{tag: "a", name: "b"}`: their
normalized quadruples differ, yet both fingerprints are the string
`"a|b|c|d|e"` because the attribute values may themselves contain the `"|"`
separator. -/
theorem makeKey_collision_on_bar :
    _make_key { tag := some "a", name := some "b|c", role := some "d",
                placeholder := some "e" } =
      _make_key { tag := some "a", name := some "b", role := some "c|d",
                  placeholder := some "e" } ∧
    normQuad { tag := some "a", name := some "b|c", role := some "d",
               placeholder := some "e" } ≠
      normQuad { tag := some "a", name := some "b", role := some "c|d",
                 placeholder := some "e" } := by
  constructor
  · decide
  · decide

/-- C3 (amended): for every pair of fields whose normalized attribute values
contain no `'|'` character, `_make_key` returns equal keys exactly when the
normalized `(tag, name, role, placeholder)` quadruples are equal; in
particular it is stable under re-scans of an identical element. -/
theorem makeKey_eq_iff_normQuad_eq (f g : FieldDesc)
    (hf : (noBar (normalizeAttr f.tag) && noBar (normalizeAttr f.name) &&
           noBar (normalizeAttr f.role) && noBar (normalizeAttr f.placeholder)) = true)
    (hg : (noBar (normalizeAttr g.tag) && noBar (normalizeAttr g.name) &&
           noBar (normalizeAttr g.role) && noBar (normalizeAttr g.placeholder)) = true) :
    _make_key f = _make_key g ↔ normQuad f = normQuad g := by
  simp only [Bool.and_eq_true, noBar, Bool.not_eq_true'] at hf hg
  obtain ⟨⟨⟨hf1, hf2⟩, hf3⟩, hf4⟩ := hf
  obtain ⟨⟨⟨hg1, hg2⟩, hg3⟩, hg4⟩ := hg
  constructor
  · intro h
    have hd := congrArg String.data h
    simp only [_make_key, String.data_append] at hd
    simp only [List.append_assoc, List.singleton_append] at hd
    obtain ⟨e1, hd⟩ := append_bar_inj hf1 hg1 hd
    obtain ⟨e2, hd⟩ := append_bar_inj hf2 hg2 hd
    obtain ⟨e3, e4⟩ := append_bar_inj hf3 hg3 hd
    simp only [normQuad, Prod.mk.injEq]
    exact ⟨string_eq_of_data_eq e1, string_eq_of_data_eq e2,
      string_eq_of_data_eq e3, string_eq_of_data_eq e4⟩
  · intro h
    simp only [normQuad, Prod.mk.injEq] at h
    obtain ⟨h1, h2, h3, h4⟩ := h
    simp only [_make_key, h1, h2, h3, h4]

/-- Witness for `makeKey_eq_iff_normQuad_eq` at two concrete fields. -/
theorem makeKey_eq_iff_normQuad_eq_witness :
    _make_key { tag := some "INPUT ", name := some "Email" } =
      _make_key { tag := some "input", name := some "email" } ↔
    normQuad { tag := some "INPUT ", name := some "Email" } =
      normQuad { tag := some "input", name := some "email" } :=
  makeKey_eq_iff_normQuad_eq _ _ (by decide) (by decide)

/-! ## Knowledge update theorems (C1, C9) -/

/-- C1: for every field, test case and execution result, `update_field_result`
appends the case to the entry's case list exactly when no already-stored case
for that fingerprint has an equal payload, increments `total` by exactly one,
increments `success` exactly when the result status is `"applied"` and
otherwise `fail`, and returns success; recording the same case twice appends
it at most once while incrementing `total` twice. -/
theorem update_field_result_spec (field : FieldDesc) (scenario : TCase)
    (result : ExecResult) (now : String) (st : Store) :
    (update_field_result field scenario result now st).2 = true ∧
    (let key := _make_key field
     let e := (lookupStore st key).getD (defaultEntry field now)
     let st1 := (update_field_result field scenario result now st).1
     let st2 := (update_field_result field scenario result now st1).1
     ∃ e1, lookupStore st1 key = some e1 ∧
       e1.cases = (if e.cases.any (fun c => c.payload == scenario.payload)
                   then e.cases else e.cases ++ [mkStoredCase scenario now]) ∧
       e1.stats.total = e.stats.total + 1 ∧
       e1.stats.success = e.stats.success +
         (if result.status == some "applied" then 1 else 0) ∧
       e1.stats.fail = e.stats.fail +
         (if result.status == some "applied" then 0 else 1) ∧
       ∃ e2, lookupStore st2 key = some e2 ∧
         e2.cases.length = (if e.cases.any (fun c => c.payload == scenario.payload)
                            then e.cases.length else e.cases.length + 1) ∧
         e2.stats.total = e.stats.total + 2) := by
  refine ⟨rfl, ?_⟩
  intro key e st1 st2
  have h1 : lookupStore st1 key = some (bumpEntry scenario result now e) :=
    lookupStore_storeSet_self st key _
  refine ⟨bumpEntry scenario result now e, h1, ?_, ?_, ?_, ?_, ?_⟩
  · simp only [bumpEntry]
  · simp only [bumpEntry]
    split <;> rfl
  · simp only [bumpEntry]
    split <;> simp
  · simp only [bumpEntry]
    split <;> simp
  · have h2 : lookupStore st2 key =
        some (bumpEntry scenario result now (bumpEntry scenario result now e)) := by
      have hst2 : st2 = storeSet st1 key
          (bumpEntry scenario result now
            ((lookupStore st1 key).getD (defaultEntry field now))) := rfl
      rw [hst2, h1]
      exact lookupStore_storeSet_self st1 key _
    refine ⟨_, h2, ?_, ?_⟩
    · by_cases hd : e.cases.any (fun c => c.payload == scenario.payload)
      · simp [bumpEntry, hd]
      · simp [bumpEntry, hd, mkStoredCase]
    · by_cases hst : result.status == some "applied" <;>
        by_cases hd : e.cases.any (fun c => c.payload == scenario.payload) <;>
          simp [bumpEntry, hst, hd, mkStoredCase]

/-- The per-entry invariant: counters are consistent and the number of stored
cases never exceeds the number of recorded results. -/
def entryInv (e : KEntry) : Prop :=
  e.stats.total = e.stats.success + e.stats.fail ∧ e.cases.length ≤ e.stats.total

/-- The store-wide invariant: every entry satisfies `entryInv`. -/
def storeInv (st : Store) : Prop :=
  ∀ k e, lookupStore st k = some e → entryInv e

theorem entryInv_default (field : FieldDesc) (now : String) :
    entryInv (defaultEntry field now) := by
  simp [entryInv, defaultEntry]

theorem entryInv_bump (scenario : TCase) (result : ExecResult) (now : String)
    (e : KEntry) (h : entryInv e) : entryInv (bumpEntry scenario result now e) := by
  obtain ⟨h1, h2⟩ := h
  unfold entryInv bumpEntry
  by_cases hst : result.status == some "applied" <;>
    by_cases hd : e.cases.any (fun c => c.payload == scenario.payload) <;>
      simp [hst, hd] <;> omega

/-- C9: starting from any store in which every entry satisfies
`total = success + fail` and `cases.length ≤ total`, every call to
`update_field_result` preserves that invariant. -/
theorem update_field_result_preserves_inv (field : FieldDesc) (scenario : TCase)
    (result : ExecResult) (now : String) (st : Store) (h : storeInv st) :
    storeInv (update_field_result field scenario result now st).1 := by
  intro k e' hl
  have hunf : (update_field_result field scenario result now st).1 =
      storeSet st (_make_key field) (bumpEntry scenario result now
        ((lookupStore st (_make_key field)).getD (defaultEntry field now))) := rfl
  rw [hunf] at hl
  by_cases hk : (k == _make_key field) = true
  · have hkk : k = _make_key field := by simpa using hk
    rw [hkk, lookupStore_storeSet_self] at hl
    obtain rfl : e' = bumpEntry scenario result now
        ((lookupStore st (_make_key field)).getD (defaultEntry field now)) := by
      simpa using hl.symm
    apply entryInv_bump
    cases hle : lookupStore st (_make_key field) with
    | none => simpa [hle] using entryInv_default field now
    | some e0 => simpa [hle] using h (_make_key field) e0 hle
  · rw [lookupStore_storeSet_ne _ _ _ _ (by simpa using hk)] at hl
    exact h k e' hl

/-- Witness for `update_field_result_preserves_inv`: the empty store satisfies
the invariant, and so does the store after one recording. -/
theorem update_field_result_preserves_inv_witness :
    storeInv ⟨[]⟩ ∧ storeInv (update_field_result {} {} {} "t" ⟨[]⟩).1 :=
  ⟨fun k e h => by simp [lookupStore, lookupFields] at h,
   update_field_result_preserves_inv {} {} {} "t" ⟨[]⟩
     (fun k e h => by simp [lookupStore, lookupFields] at h)⟩

/-! ## Executor payload application and status classification
(`core/executor.py`)

`_apply_value_to_element` is modelled on its checkbox arm (lines 29–37): the
applied result together with the number of `click()` calls performed.  The
browser read of the current checked state is passed in as `checked`. -/

/-- The payload values treated as falsy for checkboxes (executor.py line 34). -/
def checkbox_falsy_values : List String :=
  ["false", "0", "no", "", "off", "none"]

/-- `str(payload).lower() not in ("false","0","no","","off","none")`. -/
def payloadTruthiness (payload : String) : Bool :=
  !(checkbox_falsy_values.contains (pyLower payload))

/-- The checkbox arm of `_apply_value_to_element`: click exactly when the
desired state differs from the current one; always reports success. -/
def _apply_value_to_checkbox (payload : String) (checked : Bool) : Bool × Nat :=
  let should := payloadTruthiness payload
  if should != checked then (true, 1) else (true, 0)

/-- The fixed keyword list scanned over the lower-cased page text
(executor.py line 95). -/
def validation_keywords : List String :=
  ["invalid", "error", "required", "please enter", "must be", "invalid email",
   "incorrect"]

/-- Order-preserving deduplication (executor.py lines 101–105). -/
def dedupKeepFirst (xs : List String) : List String :=
  xs.foldl (fun out m => if out.contains m then out else out ++ [m]) []

/-- `_detect_validation_feedback` (executor.py lines 82–106): texts of the
alert/error-styled elements (stripped, nonempty, truncated to 400 chars) plus
a `page_contains_keyword:<kw>` marker for every fixed keyword occurring in the
lower-cased page content, deduplicated. -/
def _detect_validation_feedback (candidateTexts : List String)
    (pageContent : String) : List String :=
  let msgs := candidateTexts.filterMap (fun t =>
    let t := pyStrip t
    if t.data.isEmpty then none else some (strTake t 400))
  let body := pyLower pageContent
  let msgs := msgs ++ validation_keywords.filterMap (fun kw =>
    if hasSubstr body kw then some ("page_contains_keyword:" ++ kw) else none)
  dedupKeepFirst msgs

/-- The status classification of `execute_scenarios_on_page`
(executor.py lines 197–205). -/
def classify_status (applied : Bool) (msgs : List String)
    (expected : String) : String :=
  if !applied then "apply_failed"
  else if !msgs.isEmpty && expected == "valid" then "failed_validation"
  else if msgs.isEmpty && expected == "invalid" then "no_validation_detected"
  else "applied"

/-- The knowledge recording performed by the executor (executor.py lines 153,
211, 219): `update_field_result({"selector": selector}, case, res)` — the
field dictionary passed to the knowledge manager carries only the selector,
none of the fingerprint attributes. -/
def executor_record_result (selector : Option String) (case_ : TCase)
    (res : ExecResult) (now : String) (st : Store) : Store × Bool :=
  update_field_result { selector := selector } case_ res now st

/-- The email field of the end-to-end scenario: `<input name="email">`. -/
def emailField : FieldDesc :=
  { tag := some "input", name := some "email" }

/-- The invalid empty-string case applied in the end-to-end scenario. -/
def emptyEmailCase : TCase :=
  { payload := some "", desc := some "Empty email", typ := some "invalid" }

/-- C2: in the end-to-end scenario the status classification is indeed
`"applied"` (feedback was detected on a page containing "required" and the
case expected `"invalid"`), but the Knowledge Store's `success` counter for
the email field's fingerprint does **not** increment: the executor passes
`{"selector": selector}` to `update_field_result`, so the recording lands
under the degenerate fingerprint `"|||"`, and the entry keyed by the email
field's fingerprint `"input|email||"` is untouched. -/
theorem email_scenario_records_under_degenerate_key :
    (_detect_validation_feedback [] "This field is required").isEmpty = false ∧
    classify_status true
      (_detect_validation_feedback [] "This field is required") "invalid"
      = "applied" ∧
    (let st0 : Store := ⟨[(_make_key emailField, {})]⟩
     let st1 := (executor_record_result (some "input[name=email]") emptyEmailCase
       { status := some "applied" } "t" st0).1
     (lookupStore st1 (_make_key emailField)).map (fun e => e.stats.success)
        = some 0 ∧
     (lookupStore st1 "|||").map (fun e => e.stats.success) = some 1) := by
  refine ⟨by decide, by decide, by decide, by decide⟩

/-- The truthiness predicate exactly as the claim words it: the six literal
payloads are falsy and "every other payload is truthy", with no
lower-casing.  Stated from the claim for comparison with the code's
`payloadTruthiness`. -/
def claimTruthiness (payload : String) : Bool :=
  !(checkbox_falsy_values.contains payload)

/-- C8 (counterexample): for payload `"OFF"` against a checked checkbox the
code performs one click (it lower-cases the payload first, so `"OFF"` is
falsy), while the claim's literal reading makes `"OFF"` truthy — equal to the
checked state — and so predicts no click. -/
theorem checkbox_off_uppercase_counterexample :
    (_apply_value_to_checkbox "OFF" true).2 = 1 ∧ claimTruthiness "OFF" = true := by
  refine ⟨by decide, by decide⟩

/-- C8 (amended): a checkbox is clicked exactly when its current checked
state differs from the truthiness of the **lower-cased** payload (the six
falsy literals being compared case-insensitively); value application always
succeeds; in particular payload `"off"` toggles a checked checkbox exactly
once and leaves an unchecked one unclicked. -/
theorem checkbox_click_iff_lowercased_truthiness_differs
    (payload : String) (checked : Bool) :
    ((_apply_value_to_checkbox payload checked).2 = 1 ↔
      payloadTruthiness payload ≠ checked) ∧
    ((_apply_value_to_checkbox payload checked).2 = 0 ↔
      payloadTruthiness payload = checked) ∧
    (_apply_value_to_checkbox payload checked).1 = true ∧
    (_apply_value_to_checkbox "off" true).2 = 1 ∧
    (_apply_value_to_checkbox "off" false).2 = 0 := by
  refine ⟨?_, ?_, ?_, by decide, by decide⟩ <;>
    by_cases h : payloadTruthiness payload = checked <;>
      simp [_apply_value_to_checkbox, h]

/-! ## Retry primitive (`core/retry_handler.py`)

`retry_action` is modelled as a pure function.  The action is a function from
the one-based attempt index to an `Except` outcome (each Python invocation
either returns a value or raises an exception `e`, fatal when it matches
`fatal_exceptions` — modelled by the predicate `isFatal`).  The model records
the number of invocations performed and the list of sleep durations, in
order.  The `on_fail` callback is only logging/best-effort in the source and
is not modelled.  `RetryResult.exhausted none` models reaching the final
`raise last_exc` with `last_exc` still `None` (a `TypeError` in Python). -/

inductive RetryResult (ε α : Type) where
  | ok (value : α) (calls : Nat) (sleeps : List Nat)
  | fatal (err : ε) (calls : Nat) (sleeps : List Nat)
  | exhausted (lastErr : Option ε) (calls : Nat) (sleeps : List Nat)
deriving DecidableEq, Repr

/-- The `for attempt in range(1, attempts+1)` loop: `k` attempts remain and
`i` is the current one-based attempt index. -/
def retry_loop {ε α : Type} (act : Nat → Except ε α) (isFatal : ε → Bool)
    (delay : Nat) (backoff : Bool) :
    Nat → Nat → Option ε → List Nat → RetryResult ε α
  | 0, i, last, sleeps => .exhausted last (i - 1) sleeps
  | k+1, i, _last, sleeps =>
    match act i with
    | .ok v => .ok v i sleeps
    | .error e =>
      if isFatal e then .fatal e i sleeps
      else if k = 0 then .exhausted (some e) i sleeps
      else retry_loop act isFatal delay backoff k (i+1) (some e)
        (sleeps ++ [if backoff then delay * 2 ^ (i - 1) else delay])

/-- `retry_action(action, attempts, delay, ..., fatal_exceptions, backoff, ...)`
(retry_handler.py lines 11–41). -/
def retry_action {ε α : Type} (act : Nat → Except ε α) (attempts delay : Nat)
    (isFatal : ε → Bool) (backoff : Bool) : RetryResult ε α :=
  retry_loop act isFatal delay backoff attempts 1 none []

/-- C6: with 3 attempts, delay 1 and backoff enabled, an action that fails
non-fatally on its first two invocations and succeeds on the third is invoked
exactly 3 times, sleeps 1 then 2 time units (the `delay * 2^(attempt-1)`
schedule), and its successful result is returned. -/
theorem retry_action_two_failures_then_success {ε α : Type}
    (act : Nat → Except ε α) (isFatal : ε → Bool) (e1 e2 : ε) (v : α)
    (h1 : act 1 = Except.error e1) (hf1 : isFatal e1 = false)
    (h2 : act 2 = Except.error e2) (hf2 : isFatal e2 = false)
    (h3 : act 3 = Except.ok v) :
    retry_action act 3 1 isFatal true = .ok v 3 [1, 2] := by
  unfold retry_action
  simp [retry_loop, h1, hf1, h2, hf2, h3]

/-- A concrete action failing twice then succeeding. -/
def retryDemoAct : Nat → Except Unit Nat :=
  fun n => if n = 3 then .ok 42 else .error ()

/-- Witness for `retry_action_two_failures_then_success`. -/
theorem retry_action_two_failures_then_success_witness :
    retry_action retryDemoAct 3 1 (fun _ => false) true = .ok 42 3 [1, 2] :=
  retry_action_two_failures_then_success retryDemoAct (fun _ => false) () () 42
    rfl rfl rfl rfl rfl

theorem retry_loop_no_none_exhausted {ε α : Type} (act : Nat → Except ε α)
    (isFatal : ε → Bool) (delay : Nat) (backoff : Bool) :
    ∀ k i last sleeps, 1 ≤ k → ∀ calls sl,
      retry_loop act isFatal delay backoff k i last sleeps ≠
        .exhausted none calls sl := by
  intro k
  induction k with
  | zero => intro i last sleeps h; omega
  | succ k ih =>
    intro i last sleeps _ calls sl
    simp only [retry_loop]
    cases hact : act i with
    | ok v => simp
    | error e =>
      by_cases hf : isFatal e
      · simp [hf]
      · by_cases hk : k = 0
        · subst hk; simp [hf]
        · simp only [hf, hk, Bool.false_eq_true, if_false]
          exact ih (i + 1) (some e) _ (by omega) calls sl

/-- C10: `retry_action` requires `attempts ≥ 1`.  With `attempts = 0` the
action is never invoked, no sleep happens and the final re-raise is reached
with the error still unset (`exhausted none`, Python `raise None`); with
`attempts ≥ 1` that unset-error outcome is unreachable. -/
theorem retry_action_attempts_precondition {ε α : Type}
    (act : Nat → Except ε α) (isFatal : ε → Bool) (delay : Nat)
    (backoff : Bool) (attempts : Nat) :
    (attempts = 0 → retry_action act attempts delay isFatal backoff =
      .exhausted none 0 []) ∧
    (1 ≤ attempts → ∀ calls sleeps,
      retry_action act attempts delay isFatal backoff ≠
        .exhausted none calls sleeps) := by
  constructor
  · intro h
    subst h
    rfl
  · intro h calls sleeps
    exact retry_loop_no_none_exhausted act isFatal delay backoff attempts 1 none []
      h calls sleeps

/-- Witness for `retry_action_attempts_precondition` at `attempts = 0` and
`attempts = 3`. -/
theorem retry_action_attempts_precondition_witness :
    retry_action retryDemoAct 0 1 (fun _ => false) true = .exhausted none 0 [] ∧
    retry_action retryDemoAct 3 1 (fun _ => false) true ≠
      .exhausted none 3 [1, 2] :=
  ⟨(retry_action_attempts_precondition retryDemoAct (fun _ => false) 1 true 0).1
      rfl,
   (retry_action_attempts_precondition retryDemoAct (fun _ => false) 1 true 3).2
      (by decide) 3 [1, 2]⟩

/-! ## Crawler traversal (`core/crawler.py`)

`crawl_site` (lines 54–105) is modelled as a fueled state machine over
`(visited, to_visit, results)`.  The page content is abstracted by
`links : String → List String`, the same-domain, normalized and deduplicated
link list `extract_links` produces for each URL; `navOk url` abstracts
whether navigation and page processing succeed for that URL (on failure the
source abandons the URL: it stays visited but is neither scanned nor a
source of new links).  The throwaway pre-action page (lines 59–66) touches no
crawl state and is not modelled. -/

structure CrawlState where
  visited : List String := []
  toVisit : List (String × Nat) := []
  results : List String := []
deriving DecidableEq, Repr

/-- The enqueue loop (crawler.py lines 93–95): append `(n, depth+1)` unless
the URL is already visited or the exact pair is already queued. -/
def enqueueLinks (visited : List String) (depth1 : Nat) (ls : List String)
    (tv : List (String × Nat)) : List (String × Nat) :=
  ls.foldl (fun tv n =>
    if n ∉ visited ∧ (n, depth1) ∉ tv then tv ++ [(n, depth1)] else tv) tv

/-- The main crawl loop (crawler.py lines 68–102), fueled: pop the earliest
queued pair, skip if visited or too deep, mark visited, then — when the page
is reachable — record the scan and enqueue fresh links if depth allows. -/
def crawl_loop (links : String → List String) (navOk : String → Bool)
    (maxDepth : Nat) : Nat → CrawlState → CrawlState
  | 0, st => st
  | fuel+1, st =>
    match st.toVisit with
    | [] => st
    | (url, depth) :: rest =>
      if url ∈ st.visited ∨ maxDepth < depth then
        crawl_loop links navOk maxDepth fuel { st with toVisit := rest }
      else
        let visited := st.visited ++ [url]
        if navOk url then
          let tv := if depth < maxDepth
            then enqueueLinks visited (depth + 1) (links url) rest
            else rest
          crawl_loop links navOk maxDepth fuel
            { visited := visited, toVisit := tv, results := st.results ++ [url] }
        else
          crawl_loop links navOk maxDepth fuel
            { visited := visited, toVisit := rest, results := st.results }

/-- The initial crawl state seeded from the start URL (crawler.py lines 55–56). -/
def crawlInit (startUrl : String) : CrawlState :=
  { visited := [], toVisit := [(startUrl, 0)], results := [] }

/-- A three-page site: the seed links to `a` and `b`, which link to each
other. -/
def linksEx : String → List String :=
  fun u => if u = "s" then ["a", "b"]
    else if u = "a" then ["b"]
    else if u = "b" then ["a"] else []

/-- C4 (counterexample): the enqueue guard compares whole `(url, depth)`
pairs, so the same URL can be queued at two different depths, and after it is
visited the frontier still contains it.  On the concrete site `linksEx` with
`maxDepth = 2`: after two iterations the frontier holds both `("b", 1)` and
`("b", 2)`; after the third, `"b"` is visited while `("b", 2)` is still
queued. -/
theorem crawler_frontier_counterexample :
    (let st2 := crawl_loop linksEx (fun _ => true) 2 2 (crawlInit "s")
     ("b", 1) ∈ st2.toVisit ∧ ("b", 2) ∈ st2.toVisit) ∧
    (let st3 := crawl_loop linksEx (fun _ => true) 2 3 (crawlInit "s")
     "b" ∈ st3.visited ∧ ("b", 2) ∈ st3.toVisit) := by
  refine ⟨⟨by decide, by decide⟩, by decide, by decide⟩

theorem enqueueLinks_nodup (visited : List String) (d : Nat) :
    ∀ (ls : List String) (tv : List (String × Nat)), tv.Nodup →
      (enqueueLinks visited d ls tv).Nodup := by
  intro ls
  induction ls with
  | nil => intro tv h; simpa [enqueueLinks] using h
  | cons n ls ih =>
    intro tv h
    simp only [enqueueLinks, List.foldl_cons]
    by_cases hg : n ∉ visited ∧ (n, d) ∉ tv
    · rw [if_pos hg]
      exact ih (tv ++ [(n, d)]) (by simp [List.nodup_append, h, hg.2])
    · rw [if_neg hg]
      exact ih tv h

/-- C4 (amended): throughout the crawl loop, each URL enters `visited` at
most once (the visited list stays duplicate-free) and the frontier never
holds the same `(url, depth)` pair twice — but, as the counterexample shows,
the frontier may hold a visited URL, or one URL at two depths. -/
theorem crawl_loop_preserves_nodup (links : String → List String)
    (navOk : String → Bool) (maxDepth fuel : Nat) (st : CrawlState)
    (hv : st.visited.Nodup) (ht : st.toVisit.Nodup) :
    (crawl_loop links navOk maxDepth fuel st).visited.Nodup ∧
    (crawl_loop links navOk maxDepth fuel st).toVisit.Nodup := by
  induction fuel generalizing st with
  | zero => exact ⟨hv, ht⟩
  | succ fuel ih =>
    cases hst : st.toVisit with
    | nil =>
      simp only [crawl_loop, hst]
      exact ⟨hv, List.nodup_nil⟩
    | cons p rest =>
      obtain ⟨url, depth⟩ := p
      have hrest : rest.Nodup := (hst ▸ ht).of_cons
      simp only [crawl_loop, hst]
      by_cases hskip : url ∈ st.visited ∨ maxDepth < depth
      · rw [if_pos hskip]
        exact ih _ hv hrest
      · rw [if_neg hskip]
        have hnv : url ∉ st.visited := fun hc => hskip (Or.inl hc)
        have hv2 : (st.visited ++ [url]).Nodup := by
          simp [List.nodup_append, hv, hnv]
        by_cases hnav : navOk url
        · rw [if_pos hnav]
          refine ih _ hv2 ?_
          by_cases hd : depth < maxDepth
          · rw [if_pos hd]
            exact enqueueLinks_nodup _ _ _ _ hrest
          · rw [if_neg hd]
            exact hrest
        · rw [if_neg hnav]
          exact ih _ hv2 hrest

/-- Witness for `crawl_loop_preserves_nodup` on the concrete site. -/
theorem crawl_loop_preserves_nodup_witness :
    (crawl_loop linksEx (fun _ => true) 2 10 (crawlInit "s")).visited.Nodup ∧
    (crawl_loop linksEx (fun _ => true) 2 10 (crawlInit "s")).toVisit.Nodup :=
  crawl_loop_preserves_nodup linksEx (fun _ => true) 2 10 (crawlInit "s")
    (by simp [crawlInit]) (by simp [crawlInit])

/-! ## Scenario generator (`core/scenario_generator.py`)

`generate_scenarios` (lines 76–189).  The Ollama interaction is abstracted by
its outcome: `llmOutcome = some parsed` models the primary path succeeding
(`check_available()` true and `try_parse_json_from_raw` returning a validated
list within two attempts, whose items the function returns as-is), while
`llmOutcome = none` models the backend being unavailable or both attempts
failing, after which the deterministic heuristic fallback runs.  `build_prompt`
only produces the prompt string and does not influence the returned value, so
it is not modelled; the `combined` list it is fed from (lines 88–94) is
modelled faithfully — note that, as in the source, `combined` is used for
nothing else. -/

/-- A scenario dictionary `{"selector": ..., "tag": ..., "cases": [...]}`. -/
structure Scenario where
  selector : Option String := none
  tag : Option String := none
  cases : List TCase := []
deriving DecidableEq, Repr

/-- An item of the `combined` list: either the original field dictionary or
the substituted `{'selector', 'tag', 'cases'}` record holding the knowledge
entry's historical cases. -/
inductive GenItem where
  | plain (f : FieldDesc)
  | known (selector : Option String) (tag : Option String) (cases : List TCase)
deriving DecidableEq, Repr

/-- Python truthiness chain `a or b or c or ""` over optional strings:
the first value that is neither `None` nor empty. -/
def pyOrChain : List (Option String) → String
  | [] => ""
  | none :: rest => pyOrChain rest
  | some x :: rest => if x.isEmpty then pyOrChain rest else x

/-- The deterministic heuristic case sets (scenario_generator.py
lines 154–184), keyed on the lower-cased name/placeholder/role text. -/
def heuristic_cases (nm : String) : List TCase :=
  if hasSubstr nm "email" then
    [{ payload := some "", desc := some "Empty email", typ := some "invalid",
       brief := some "Empty input should not be accepted." },
     { payload := some "user@", desc := some "Incomplete email",
       typ := some "invalid", brief := some "Missing domain part." },
     { payload := some "user@example.com", desc := some "Valid email",
       typ := some "valid", brief := some "Standard valid email format." }]
  else if hasSubstr nm "pass" then
    [{ payload := some "", desc := some "Empty password", typ := some "invalid",
       brief := some "Cannot be empty." },
     { payload := some "123", desc := some "Too short password",
       typ := some "invalid", brief := some "Too weak or short." },
     { payload := some "P@ssw0rd!", desc := some "Strong password",
       typ := some "valid",
       brief := some "Contains upper/lowercase, number, and symbol." }]
  else if hasSubstr nm "name" then
    [{ payload := some "", desc := some "Empty name", typ := some "invalid",
       brief := some "Name is required." },
     { payload := some "1234", desc := some "Numeric name", typ := some "invalid",
       brief := some "Names shouldn't be numbers." },
     { payload := some "John Doe", desc := some "Valid name", typ := some "valid",
       brief := some "Standard name input." }]
  else if hasSubstr nm "phone" || hasSubstr nm "number" || hasSubstr nm "age" ||
      hasSubstr nm "qty" then
    [{ payload := some "", desc := some "Empty input", typ := some "invalid",
       brief := some "Value required." },
     { payload := some "abc", desc := some "Alphabetic in numeric field",
       typ := some "invalid", brief := some "Non-numeric not allowed." },
     { payload := some "25", desc := some "Valid number", typ := some "valid",
       brief := some "Typical valid integer." }]
  else
    [{ payload := some "", desc := some "Empty input", typ := some "invalid",
       brief := some "Should not accept empty." },
     { payload := some "test", desc := some "Normal valid input",
       typ := some "valid", brief := some "Common valid case." },
     { payload := some "<script>alert(1)</script>", desc := some "XSS injection",
       typ := some "invalid",
       brief := some "Test for script injection vulnerability." }]

/-- One fallback scenario (scenario_generator.py lines 148–186). -/
def heuristicScenario (f : FieldDesc) : Scenario :=
  { selector := f.selector, tag := f.tag,
    cases := heuristic_cases (pyLower (pyOrChain [f.name, f.placeholder, f.role])) }

/-- `generate_scenarios(fields, cfg)` with the text-generation interaction
abstracted by its outcome. -/
def generate_scenarios (store : Store) (llmOutcome : Option (List Scenario))
    (fields : List FieldDesc) : List Scenario :=
  if fields.isEmpty then []
  else
    let _combined : List GenItem := fields.map (fun f =>
      match lookupStore store (_make_key f) with
      | some e => if !e.cases.isEmpty then GenItem.known f.selector f.tag e.cases
                  else GenItem.plain f
      | none => GenItem.plain f)
    match llmOutcome with
    | some parsed => parsed
    | none => fields.map heuristicScenario

/-- A field whose fingerprint already has a stored case. -/
def knownEmailField : FieldDesc :=
  { tag := some "input", name := some "email", selector := some "#email" }

/-- The historical case stored for `knownEmailField`. -/
def storedEmailCase : TCase :=
  { payload := some "z@q.io", desc := some "seen before", typ := some "valid" }

/-- A store holding that single historical case. -/
def storeWithEmail : Store :=
  ⟨[(_make_key knownEmailField, { cases := [storedEmailCase] })]⟩

/-- C5: a field with prior knowledge does **not** get its historical cases
back from `generate_scenarios`.  With the text-generation backend
unavailable, the heuristic fallback iterates over the raw `fields` list and
emits three fresh email cases for the field, instead of replaying the single
stored case; the substituted `combined` entry only ever feeds the prompt. -/
theorem generate_scenarios_ignores_history :
    (lookupStore storeWithEmail (_make_key knownEmailField)).map (fun e => e.cases)
      = some [storedEmailCase] ∧
    generate_scenarios storeWithEmail none [knownEmailField] =
      [{ selector := some "#email", tag := some "input",
         cases := heuristic_cases "email" }] ∧
    heuristic_cases "email" ≠ [storedEmailCase] := by
  refine ⟨by decide, by decide, by decide⟩

/-! ## Defensive response parsing
(`core/scenario_generator.py`, `try_parse_json_from_raw`, lines 46–72)

The raw model output is cleaned exactly as the source does (strip, markdown
fence handling via `split("```")`, cut after the last `]`, cut before the
first `[`) and then handed to `json.loads`.  The JSON ecosystem is modelled
executably: `Json` is the value tree (numbers restricted to integers — float
payloads are outside this model), `serJson` is the canonical compact
serialization of a value (`json.dumps` with `","`/`":"` separators; strings
escape the quote, backslash and the common control characters), and
`parseJson` models `json.loads`: whitespace-tolerant, and failing — like the
`json.JSONDecodeError` the source catches — on malformed text or trailing
data. -/

inductive Json where
  | null
  | bool (b : Bool)
  | num (n : Int)
  | str (s : List Char)
  | arr (elems : List Json)
  | obj (members : List (List Char × Json))
deriving Repr

/-- The decimal digit characters. -/
def digitChar : Nat → Char
  | 0 => '0' | 1 => '1' | 2 => '2' | 3 => '3' | 4 => '4'
  | 5 => '5' | 6 => '6' | 7 => '7' | 8 => '8' | _ => '9'

def isDigitCh (c : Char) : Bool :=
  '0' ≤ c && c ≤ '9'

/-- Decimal digits of a natural number, most significant first. -/
def natChars (n : Nat) : List Char :=
  if _h : n < 10 then [digitChar n]
  else natChars (n / 10) ++ [digitChar (n % 10)]
  termination_by n
  decreasing_by exact Nat.div_lt_self (by omega) (by omega)

/-- Decimal representation of an integer. -/
def intChars (i : Int) : List Char :=
  if i < 0 then '-' :: natChars (-i).toNat else natChars i.toNat

/-- The escape sequence for one of the five escaped characters. -/
def escSeq (c : Char) : List Char :=
  if c = '"' then ['\\', '"']
  else if c = '\\' then ['\\', '\\']
  else if c = '\n' then ['\\', 'n']
  else if c = '\t' then ['\\', 't']
  else ['\\', 'r']

/-- Serialization of one string character. -/
def escChar (c : Char) : List Char :=
  if c = '"' ∨ c = '\\' ∨ c = '\n' ∨ c = '\t' ∨ c = '\r' then escSeq c else [c]

/-- Serialization of a string body (without the surrounding quotes). -/
def serStrBody : List Char → List Char
  | [] => []
  | c :: t => escChar c ++ serStrBody t

mutual
def serJson : Json → List Char
  | .null => "null".data
  | .bool true => "true".data
  | .bool false => "false".data
  | .num n => intChars n
  | .str s => '"' :: serStrBody s ++ ['"']
  | .arr xs => '[' :: serElems xs ++ [']']
  | .obj ms => '{' :: serMembers ms ++ ['}']

def serElems : List Json → List Char
  | [] => []
  | [x] => serJson x
  | x :: y :: rest => serJson x ++ ',' :: serElems (y :: rest)

def serMembers : List (List Char × Json) → List Char
  | [] => []
  | [(k, v)] => '"' :: serStrBody k ++ '"' :: ':' :: serJson v
  | (k, v) :: m :: rest =>
    ('"' :: serStrBody k ++ '"' :: ':' :: serJson v) ++ ',' :: serMembers (m :: rest)
end

/-! The fuel accounting for the parser: one unit per parser-function call. -/

mutual
def jweight : Json → Nat
  | .null => 1
  | .bool _ => 1
  | .num _ => 1
  | .str _ => 1
  | .arr xs => 1 + lweight xs
  | .obj ms => 1 + mweight ms

def lweight : List Json → Nat
  | [] => 0
  | x :: rest => 1 + jweight x + lweight rest

def mweight : List (List Char × Json) → Nat
  | [] => 0
  | (_, v) :: rest => 1 + jweight v + mweight rest
end

/-- `json.loads` whitespace skipping. -/
def skipWs (cs : List Char) : List Char :=
  cs.dropWhile isWsChar

/-- Unescaping after a backslash in a string literal. -/
def unesc (c : Char) : Option Char :=
  if c = '"' then some '"'
  else if c = '\\' then some '\\'
  else if c = '/' then some '/'
  else if c = 'n' then some '\n'
  else if c = 't' then some '\t'
  else if c = 'r' then some '\r'
  else none

/-- String-literal body parsing, after the opening quote: the decoded
content and the remainder after the closing quote. -/
def parseStrBody : List Char → Option (List Char × List Char)
  | [] => none
  | c :: rest =>
    if c = '"' then some ([], rest)
    else if c = '\\' then
      match rest with
      | [] => none
      | e :: rest2 =>
        match unesc e with
        | none => none
        | some u =>
          match parseStrBody rest2 with
          | none => none
          | some (s, r) => some (u :: s, r)
    else
      match parseStrBody rest with
      | none => none
      | some (s, r) => some (c :: s, r)

/-- The value of a digit character. -/
def digitVal (c : Char) : Nat :=
  c.toNat - 48

/-- The leading run of digits. -/
def takeDigits (cs : List Char) : List Char :=
  cs.takeWhile isDigitCh

/-- The numeric value of a digit run. -/
def digitsVal (ds : List Char) : Nat :=
  ds.foldl (fun a c => 10 * a + digitVal c) 0

/-- Integer-literal parsing (this model restricts JSON numbers to integers). -/
def parseNum (cs : List Char) : Option (Int × List Char) :=
  if cs.head? = some '-' then
    let ds := takeDigits cs.tail
    if ds.isEmpty then none
    else some (-(digitsVal ds : Int), cs.tail.drop ds.length)
  else
    let ds := takeDigits cs
    if ds.isEmpty then none
    else some ((digitsVal ds : Int), cs.drop ds.length)

mutual
def parseVal : Nat → List Char → Option (Json × List Char)
  | 0, _ => none
  | fuel+1, cs0 =>
    let cs := skipWs cs0
    if "null".data.isPrefixOf cs then some (.null, cs.drop 4)
    else if "true".data.isPrefixOf cs then some (.bool true, cs.drop 4)
    else if "false".data.isPrefixOf cs then some (.bool false, cs.drop 5)
    else
      match cs with
      | [] => none
      | c :: rest =>
        if c = '"' then
          match parseStrBody rest with
          | none => none
          | some (s, r) => some (.str s, r)
        else if c = '[' then
          if (skipWs rest).head? = some ']' then some (.arr [], (skipWs rest).tail)
          else
            match parseElems fuel rest with
            | none => none
            | some (xs, r) => some (.arr xs, r)
        else if c = '{' then
          if (skipWs rest).head? = some '}' then some (.obj [], (skipWs rest).tail)
          else
            match parseMembers fuel rest with
            | none => none
            | some (ms, r) => some (.obj ms, r)
        else
          match parseNum (c :: rest) with
          | none => none
          | some (n, r) => some (.num n, r)

def parseElems : Nat → List Char → Option (List Json × List Char)
  | 0, _ => none
  | fuel+1, cs =>
    match parseVal fuel cs with
    | none => none
    | some (v, rest) =>
      match skipWs rest with
      | ',' :: r2 =>
        match parseElems fuel r2 with
        | none => none
        | some (xs, r) => some (v :: xs, r)
      | ']' :: r2 => some ([v], r2)
      | _ => none

def parseMembers : Nat → List Char → Option (List (List Char × Json) × List Char)
  | 0, _ => none
  | fuel+1, cs =>
    match skipWs cs with
    | '"' :: rest =>
      match parseStrBody rest with
      | none => none
      | some (k, r1) =>
        match skipWs r1 with
        | ':' :: r2 =>
          match parseVal fuel r2 with
          | none => none
          | some (v, r3) =>
            match skipWs r3 with
            | ',' :: r4 =>
              match parseMembers fuel r4 with
              | none => none
              | some (ms, r) => some ((k, v) :: ms, r)
            | '}' :: r4 => some ([(k, v)], r4)
            | _ => none
        | _ => none
    | _ => none
end

/-- `json.loads`: parse one value, allow trailing whitespace only. -/
def parseJson (cs : List Char) : Option Json :=
  match parseVal (cs.length + 1) cs with
  | none => none
  | some (v, rest) => if (skipWs rest).isEmpty then some v else none

/-! The fence-marker handling of `try_parse_json_from_raw`. -/

/-- The markdown fence marker the source splits on. -/
def fenceChars : List Char := ['`', '`', '`']

/-- Does a (stripped) piece start with `[` or `{`? -/
def startsBracket (xs : List Char) : Bool :=
  xs.head? = some '[' || xs.head? = some '{'

/-- Prepend a character to the first piece of a split. -/
def consHead (c : Char) : List (List Char) → List (List Char)
  | [] => [[c]]
  | p :: ps => (c :: p) :: ps

/-- Python `s.split("```")`: pieces between non-overlapping occurrences of the
marker, scanned left to right. -/
def splitFence : List Char → List (List Char)
  | '`' :: '`' :: '`' :: rest => [] :: splitFence rest
  | c :: rest => consHead c (splitFence rest)
  | [] => [[]]

/-- Python `cleaned[:cleaned.rfind("]") + 1]` when `"]"` occurs, else
`cleaned` unchanged. -/
def rstripToRB (xs : List Char) : List Char :=
  let r := xs.reverse.dropWhile (fun c => !(c = ']'))
  if r.isEmpty then xs else r.reverse

/-- Python `cleaned[cleaned.find("["):]` when `"["` occurs, else `cleaned`
unchanged. -/
def dropToLB (xs : List Char) : List Char :=
  if xs.any (fun c => c = '[') then xs.dropWhile (fun c => !(c = '[')) else xs

/-- The cleaning pipeline of `try_parse_json_from_raw`
(scenario_generator.py lines 46–72): strip; if the text starts with a fence,
substitute the first stripped `split("```")` piece that starts with `[` or
`{`; cut after the last `]`; cut before the first `[`. -/
def cleanRawChars (raw : List Char) : List Char :=
  let cleaned := pyStripChars raw
  let cleaned :=
    if fenceChars.isPrefixOf cleaned then
      match (splitFence cleaned).find? (fun p => startsBracket (pyStripChars p)) with
      | some p => pyStripChars p
      | none => cleaned
    else cleaned
  let cleaned := rstripToRB cleaned
  dropToLB cleaned

/-- `try_parse_json_from_raw(raw_text)`: clean, then `json.loads`. -/
def try_parse_json_from_raw (raw : String) : Option Json :=
  parseJson (cleanRawChars raw.data)

/-- The array `["``` []"]`: one string payload containing a fence marker
followed by a bracket. -/
def counterArr : Json :=
  Json.arr [Json.str "``` []".data]

/-- C7 (counterexample): the claim fails for the array `["``` []"]`.  Its
serialization parses back to the array when bare, but once wrapped in fence
markers the `split("```")` loop latches onto the stripped piece `[]"]` (the
text after the in-payload marker, which starts with `[`), and parsing that
piece fails — so the fenced and bare results differ. -/
theorem try_parse_fence_marker_counterexample :
    try_parse_json_from_raw ("```json\n" ++ ⟨serJson counterArr⟩ ++ "\n```") = none ∧
    try_parse_json_from_raw ⟨serJson counterArr⟩ = some counterArr := by
  exact ⟨rfl, rfl⟩

/-! Round-trip lemmas: digits. -/

theorem digitChar_spec (d : Nat) (h : d < 10) :
    isDigitCh (digitChar d) = true ∧ digitVal (digitChar d) = d := by
  interval_cases d <;> exact ⟨by decide, by decide⟩

theorem natChars_eq (n : Nat) : natChars n =
    if n < 10 then [digitChar n] else natChars (n / 10) ++ [digitChar (n % 10)] := by
  rw [natChars]
  split <;> rfl

theorem natChars_ne_nil (n : Nat) : natChars n ≠ [] := by
  rw [natChars_eq]
  split <;> simp

theorem natChars_all_digits (n : Nat) : ∀ c ∈ natChars n, isDigitCh c = true := by
  induction n using Nat.strong_induction_on with
  | _ n ih =>
    rw [natChars_eq]
    split
    · rename_i h
      intro c hc
      simp only [List.mem_singleton] at hc
      subst hc
      exact (digitChar_spec n h).1
    · rename_i h
      intro c hc
      simp only [List.mem_append, List.mem_singleton] at hc
      rcases hc with hc | hc
      · exact ih (n / 10) (Nat.div_lt_self (by omega) (by omega)) c hc
      · subst hc
        exact (digitChar_spec (n % 10) (Nat.mod_lt _ (by omega))).1

theorem digitsVal_foldl_from (a : Nat) (ds : List Char) :
    ds.foldl (fun a c => 10 * a + digitVal c) a =
      a * 10 ^ ds.length + digitsVal ds := by
  induction ds generalizing a with
  | nil => simp [digitsVal]
  | cons c t ih =>
    have hd : digitsVal (c :: t) = t.foldl (fun a c => 10 * a + digitVal c) (digitVal c) := by
      simp [digitsVal]
    simp only [List.foldl_cons, List.length_cons, hd]
    rw [ih, ih (digitVal c)]
    ring

theorem digitsVal_natChars (n : Nat) : digitsVal (natChars n) = n := by
  induction n using Nat.strong_induction_on with
  | _ n ih =>
    rw [natChars_eq]
    split
    · rename_i h
      simp [digitsVal, (digitChar_spec n h).2]
    · rename_i h
      show (natChars (n / 10) ++ [digitChar (n % 10)]).foldl
        (fun a c => 10 * a + digitVal c) 0 = n
      rw [List.foldl_append]
      simp only [List.foldl_cons, List.foldl_nil]
      rw [show (natChars (n / 10)).foldl (fun a c => 10 * a + digitVal c) 0 =
        digitsVal (natChars (n / 10)) from rfl]
      rw [ih (n / 10) (Nat.div_lt_self (by omega) (by omega))]
      rw [(digitChar_spec (n % 10) (Nat.mod_lt _ (by omega))).2]
      omega

theorem natChars_head (n : Nat) :
    ∃ c t, natChars n = c :: t ∧ isDigitCh c = true := by
  cases hnc : natChars n with
  | nil => exact absurd hnc (natChars_ne_nil n)
  | cons c t => exact ⟨c, t, rfl, natChars_all_digits n c (by simp [hnc])⟩

theorem isDigitCh_ne (c x : Char) (h : isDigitCh c = true)
    (hx : isDigitCh x = false) : c ≠ x := by
  intro e
  subst e
  rw [h] at hx
  exact Bool.noConfusion hx

theorem takeWhile_all_append (p : Char → Bool) (xs ys : List Char)
    (h : ∀ c ∈ xs, p c = true) :
    (xs ++ ys).takeWhile p = xs ++ ys.takeWhile p := by
  induction xs with
  | nil => simp
  | cons c t ih =>
    rw [List.cons_append, List.takeWhile_cons, if_pos (h c (by simp)),
      ih (fun d hd => h d (by simp [hd])), List.cons_append]

/-- The character after a serialized value is never a digit in well-formed
positions: end of input, list/object separators, closing brackets. -/
def restDelim (rest : List Char) : Bool :=
  match rest with
  | [] => true
  | c :: _ => !(isDigitCh c)

theorem takeDigits_append_delim (ds rest : List Char)
    (hds : ∀ c ∈ ds, isDigitCh c = true) (hr : restDelim rest = true) :
    takeDigits (ds ++ rest) = ds := by
  unfold takeDigits
  rw [takeWhile_all_append _ _ _ hds]
  cases rest with
  | nil => simp
  | cons c t =>
    simp only [restDelim, Bool.not_eq_true'] at hr
    simp [List.takeWhile_cons, hr]

theorem parseNum_intChars (n : Int) (rest : List Char)
    (hr : restDelim rest = true) :
    parseNum (intChars n ++ rest) = some (n, rest) := by
  unfold intChars
  by_cases hneg : n < 0
  · rw [if_pos hneg]
    simp only [List.cons_append]
    unfold parseNum
    rw [if_pos (show ('-' :: (natChars (-n).toNat ++ rest)).head? = some '-' from rfl)]
    simp only [List.tail_cons]
    rw [takeDigits_append_delim _ _ (natChars_all_digits _) hr]
    rw [if_neg (by simp [List.isEmpty_iff, natChars_ne_nil])]
    rw [List.drop_left]
    rw [digitsVal_natChars]
    have ht : (((-n).toNat : Int)) = -n := Int.toNat_of_nonneg (by omega)
    rw [ht]
    simp
  · rw [if_neg hneg]
    obtain ⟨c, t, hct, hcd⟩ := natChars_head n.toNat
    have hall : ∀ d ∈ c :: t, isDigitCh d = true := by
      rw [← hct]
      exact natChars_all_digits n.toNat
    rw [hct]
    simp only [List.cons_append]
    unfold parseNum
    rw [if_neg (by
      simp only [List.head?_cons, Option.some.injEq]
      exact isDigitCh_ne c '-' hcd (by decide))]
    have htake : takeDigits (c :: (t ++ rest)) = c :: t := by
      have h2 := takeDigits_append_delim (c :: t) rest hall hr
      simpa using h2
    rw [htake]
    rw [if_neg (by simp)]
    have hdrop : (c :: (t ++ rest)).drop (c :: t).length = rest := by
      have h3 := List.drop_left (c :: t) rest
      simpa using h3
    rw [hdrop]
    have hval : digitsVal (c :: t) = n.toNat := by
      rw [← hct, digitsVal_natChars]
    rw [hval]
    have ht2 : ((n.toNat : Int)) = n := Int.toNat_of_nonneg (by omega)
    rw [ht2]

/-! Round-trip lemmas: string literals. -/

theorem parseStrBody_cons_quote (rest : List Char) :
    parseStrBody ('"' :: rest) = some ([], rest) := by
  rw [parseStrBody.eq_def]
  simp

theorem parseStrBody_cons_esc (e : Char) (rest : List Char) :
    parseStrBody ('\\' :: e :: rest) =
      (match unesc e with
       | none => none
       | some u =>
         match parseStrBody rest with
         | none => none
         | some (s, r) => some (u :: s, r)) := by
  rw [parseStrBody.eq_def]
  simp

theorem parseStrBody_cons_other (c : Char) (rest : List Char) (h1 : c ≠ '"')
    (h2 : c ≠ '\\') :
    parseStrBody (c :: rest) =
      (match parseStrBody rest with
       | none => none
       | some (s, r) => some (c :: s, r)) := by
  rw [parseStrBody.eq_def]
  simp [h1, h2]

theorem parseStrBody_roundtrip (s rest : List Char) :
    parseStrBody (serStrBody s ++ '"' :: rest) = some (s, rest) := by
  induction s with
  | nil =>
    show parseStrBody ('"' :: rest) = some ([], rest)
    exact parseStrBody_cons_quote rest
  | cons c t ih =>
    have hser : serStrBody (c :: t) ++ '"' :: rest =
        escChar c ++ (serStrBody t ++ '"' :: rest) := by
      simp [serStrBody]
    rw [hser]
    by_cases hesc : c = '"' ∨ c = '\\' ∨ c = '\n' ∨ c = '\t' ∨ c = '\r'
    · rw [escChar, if_pos hesc]
      rcases hesc with h | h | h | h | h <;> subst h <;>
        simp [escSeq, parseStrBody_cons_esc, unesc, ih]
    · rw [escChar, if_neg hesc]
      push_neg at hesc
      obtain ⟨h1, h2, _, _, _⟩ := hesc
      rw [List.cons_append, List.nil_append, parseStrBody_cons_other c _ h1 h2, ih]

/-! Round-trip lemmas: head characters and fuel weights. -/

theorem skipWs_cons_not_ws (c : Char) (t : List Char) (h : isWsChar c = false) :
    skipWs (c :: t) = c :: t := by
  simp [skipWs, List.dropWhile_cons, h]

theorem isDigitCh_not_ws (c : Char) (h : isDigitCh c = true) :
    isWsChar c = false := by
  cases hw : isWsChar c with
  | false => rfl
  | true =>
    exfalso
    simp only [isWsChar, Bool.or_eq_true, beq_iff_eq] at hw
    rcases hw with ((h1 | h1) | h1) | h1 <;> subst h1 <;> exact absurd h (by decide)

theorem intChars_head (n : Int) :
    ∃ c t, intChars n = c :: t ∧ (c = '-' ∨ isDigitCh c = true) := by
  unfold intChars
  by_cases hneg : n < 0
  · rw [if_pos hneg]
    exact ⟨'-', _, rfl, Or.inl rfl⟩
  · rw [if_neg hneg]
    obtain ⟨c, t, hct, hd⟩ := natChars_head n.toNat
    exact ⟨c, t, hct, Or.inr hd⟩

theorem numHead_facts (c : Char) (h : c = '-' ∨ isDigitCh c = true) :
    isWsChar c = false ∧ c ≠ 'n' ∧ c ≠ 't' ∧ c ≠ 'f' ∧ c ≠ '"' ∧
      c ≠ '[' ∧ c ≠ '{' ∧ c ≠ ']' ∧ c ≠ '}' := by
  rcases h with h | h
  · subst h
    exact ⟨by decide, by decide, by decide, by decide, by decide, by decide,
      by decide, by decide, by decide⟩
  · exact ⟨isDigitCh_not_ws c h, isDigitCh_ne c 'n' h (by decide),
      isDigitCh_ne c 't' h (by decide), isDigitCh_ne c 'f' h (by decide),
      isDigitCh_ne c '"' h (by decide), isDigitCh_ne c '[' h (by decide),
      isDigitCh_ne c '{' h (by decide), isDigitCh_ne c ']' h (by decide),
      isDigitCh_ne c '}' h (by decide)⟩

theorem serJson_head (a : Json) :
    ∃ c t, serJson a = c :: t ∧ isWsChar c = false ∧ c ≠ ']' ∧ c ≠ '}' := by
  cases a with
  | null => exact ⟨'n', "ull".data, rfl, by decide, by decide, by decide⟩
  | bool b =>
    cases b with
    | true => exact ⟨'t', "rue".data, rfl, by decide, by decide, by decide⟩
    | false => exact ⟨'f', "alse".data, rfl, by decide, by decide, by decide⟩
  | num n =>
    obtain ⟨c, t, hct, hd⟩ := intChars_head n
    obtain ⟨hws, _, _, _, _, _, _, hrb, hcb⟩ := numHead_facts c hd
    exact ⟨c, t, hct, hws, hrb, hcb⟩
  | str s => exact ⟨'"', serStrBody s ++ ['"'], rfl, by decide, by decide, by decide⟩
  | arr xs => exact ⟨'[', serElems xs ++ [']'], rfl, by decide, by decide, by decide⟩
  | obj ms => exact ⟨'{', serMembers ms ++ ['}'], rfl, by decide, by decide, by decide⟩

theorem serElems_head (x : Json) (xs : List Json) :
    ∃ c t, serElems (x :: xs) = c :: t ∧ isWsChar c = false ∧ c ≠ ']' ∧ c ≠ '}' := by
  obtain ⟨c, t, hct, h1, h2, h3⟩ := serJson_head x
  cases xs with
  | nil => exact ⟨c, t, by simp [serElems, hct], h1, h2, h3⟩
  | cons y ys =>
    exact ⟨c, t ++ ',' :: serElems (y :: ys), by simp [serElems, hct], h1, h2, h3⟩

theorem isPrefixOf_cons_ne (p c : Char) (ps X : List Char) (h : c ≠ p) :
    ((p :: ps).isPrefixOf (c :: X)) = false := by
  simp only [List.isPrefixOf, Bool.and_eq_false_iff]
  exact Or.inl (by simp [Ne.symm h])

theorem jweight_pos (a : Json) : 1 ≤ jweight a := by
  cases a <;> simp [jweight]

theorem lweight_pos (xs : List Json) (h : xs ≠ []) : 1 ≤ lweight xs := by
  cases xs with
  | nil => exact absurd rfl h
  | cons x t =>
    simp [lweight]
    omega

theorem mweight_pos (ms : List (List Char × Json)) (h : ms ≠ []) :
    1 ≤ mweight ms := by
  cases ms with
  | nil => exact absurd rfl h
  | cons m t =>
    obtain ⟨k, v⟩ := m
    simp [mweight]
    omega

theorem intChars_length_pos (n : Int) : 1 ≤ (intChars n).length := by
  unfold intChars
  split
  · simp
  · have h := natChars_ne_nil n.toNat
    cases hc : natChars n.toNat with
    | nil => exact absurd hc h
    | cons c t => simp [hc]

mutual
theorem jweight_le_serLen : ∀ a : Json, jweight a ≤ (serJson a).length
  | .null => by simp [jweight, serJson]
  | .bool true => by simp [jweight, serJson]
  | .bool false => by simp [jweight, serJson]
  | .num n => by
    have h := intChars_length_pos n
    simpa [jweight, serJson] using h
  | .str s => by simp [jweight, serJson]
  | .arr xs => by
    have h := lweight_le_serLen xs
    simp [jweight, serJson]
    omega
  | .obj ms => by
    have h := mweight_le_serLen ms
    simp [jweight, serJson]
    omega

theorem lweight_le_serLen : ∀ xs : List Json, lweight xs ≤ (serElems xs).length + 1
  | [] => by simp [lweight, serElems]
  | [x] => by
    have h := jweight_le_serLen x
    simp [lweight, serElems]
    omega
  | x :: y :: rest => by
    have h1 := jweight_le_serLen x
    have h2 := lweight_le_serLen (y :: rest)
    simp [lweight, serElems]
    simp [lweight] at h2
    omega

theorem mweight_le_serLen :
    ∀ ms : List (List Char × Json), mweight ms ≤ (serMembers ms).length + 1
  | [] => by simp [mweight, serMembers]
  | [(k, v)] => by
    have h := jweight_le_serLen v
    simp [mweight, serMembers]
    omega
  | (k, v) :: m :: rest => by
    obtain ⟨k2, v2⟩ := m
    have h1 := jweight_le_serLen v
    have h2 := mweight_le_serLen ((k2, v2) :: rest)
    simp only [mweight, serMembers, List.length_append, List.length_cons]
    simp only [mweight] at h2
    omega
end

/-! The printer–reader round trip: the canonical serialization of a value is
read back as that value. -/

theorem lweight_cons (x : Json) (xs : List Json) :
    lweight (x :: xs) = 1 + jweight x + lweight xs := by
  simp [lweight]

theorem mweight_cons (k : List Char) (v : Json) (ms : List (List Char × Json)) :
    mweight ((k, v) :: ms) = 1 + jweight v + mweight ms := by
  simp [mweight]

theorem lweight_nil : lweight [] = 0 := by simp [lweight]

theorem mweight_nil : mweight [] = 0 := by simp [mweight]


theorem parse_ser_roundtrip : ∀ fuel : Nat,
    (∀ (a : Json) (rest : List Char), jweight a ≤ fuel → restDelim rest = true →
      parseVal fuel (serJson a ++ rest) = some (a, rest)) ∧
    (∀ (xs : List Json) (rest : List Char), xs ≠ [] → lweight xs ≤ fuel →
      parseElems fuel (serElems xs ++ ']' :: rest) = some (xs, rest)) ∧
    (∀ (ms : List (List Char × Json)) (rest : List Char), ms ≠ [] → mweight ms ≤ fuel →
      parseMembers fuel (serMembers ms ++ '}' :: rest) = some (ms, rest)) := by
  intro fuel
  induction fuel with
  | zero =>
    refine ⟨?_, ?_, ?_⟩
    · intro a rest hw _
      exact absurd hw (by have := jweight_pos a; omega)
    · intro xs rest hne hw
      exact absurd hw (by have := lweight_pos xs hne; omega)
    · intro ms rest hne hw
      exact absurd hw (by have := mweight_pos ms hne; omega)
  | succ fuel ih =>
    obtain ⟨ih1, ih2, ih3⟩ := ih
    refine ⟨?_, ?_, ?_⟩
    · intro a rest hw hr
      cases a with
      | null =>
        show parseVal (fuel+1) ('n' :: 'u' :: 'l' :: 'l' ::rest) = some (.null, rest)
        rw [parseVal.eq_def]
        simp [skipWs, isWsChar, List.isPrefixOf]
      | bool b =>
        cases b with
        | true =>
          show parseVal (fuel+1) ('t' :: 'r' :: 'u' :: 'e' ::rest) = some (.bool true, rest)
          rw [parseVal.eq_def]
          simp [skipWs, isWsChar, List.isPrefixOf]
        | false =>
          show parseVal (fuel+1) ('f' :: 'a' :: 'l' :: 's' :: 'e' ::rest) = some (.bool false, rest)
          rw [parseVal.eq_def]
          simp [skipWs, isWsChar, List.isPrefixOf]
      | num n =>
        obtain ⟨c, t, hct, hcd⟩ := intChars_head n
        obtain ⟨hws, hn, htt, hf, hq, hlb, hlcb, _, _⟩ := numHead_facts c hcd
        have hshape : serJson (.num n) ++ rest = c :: (t ++ rest) := by
          show intChars n ++ rest = _
          rw [hct, List.cons_append]
        rw [hshape, parseVal.eq_def]
        have e1 : ("null".data.isPrefixOf (c :: (t ++ rest))) = false :=
          isPrefixOf_cons_ne 'n' c _ _ hn
        have e2 : ("true".data.isPrefixOf (c :: (t ++ rest))) = false :=
          isPrefixOf_cons_ne 't' c _ _ htt
        have e3 : ("false".data.isPrefixOf (c :: (t ++ rest))) = false :=
          isPrefixOf_cons_ne 'f' c _ _ hf
        have e4 : parseNum (c :: (t ++ rest)) = some (n, rest) := by
          rw [← List.cons_append, ← hct]
          exact parseNum_intChars n rest hr
        simp [skipWs_cons_not_ws c _ hws, e1, e2, e3, e4, hq, hlb, hlcb]
      | str s0 =>
        have hshape : serJson (.str s0) ++ rest = '"' :: (serStrBody s0 ++ '"' :: rest) := by
          show ('"' :: (serStrBody s0 ++ ['"'])) ++ rest = _
          simp
        rw [hshape, parseVal.eq_def]
        have e4 : parseStrBody (serStrBody s0 ++ '"' :: rest) = some (s0, rest) :=
          parseStrBody_roundtrip s0 rest
        simp [skipWs, isWsChar, List.isPrefixOf, e4]
      | arr xs =>
        have hshape : serJson (.arr xs) ++ rest = '[' :: (serElems xs ++ ']' :: rest) := by
          show ('[' :: (serElems xs ++ [']'])) ++ rest = _
          simp
        rw [hshape, parseVal.eq_def]
        cases xs with
        | nil =>
          simp [serElems, skipWs, isWsChar, List.isPrefixOf]
        | cons x xs' =>
          obtain ⟨c0, t0, hct0, hws0, hrb0, _⟩ := serElems_head x xs'
          have e0 : skipWs ('[' :: (serElems (x :: xs') ++ ']' :: rest)) =
              '[' :: (serElems (x :: xs') ++ ']' :: rest) :=
            skipWs_cons_not_ws '[' _ (by decide)
          have e_skip : skipWs (serElems (x :: xs') ++ ']' :: rest) =
              serElems (x :: xs') ++ ']' :: rest := by
            rw [hct0, List.cons_append]
            exact skipWs_cons_not_ws c0 _ hws0
          have e_head : (serElems (x :: xs') ++ ']' :: rest).head? = some c0 := by
            rw [hct0, List.cons_append]
            rfl
          have e_cond : ((skipWs (serElems (x :: xs') ++ ']' :: rest)).head? =
              some ']') = False := by
            rw [e_skip, e_head]
            simp [hrb0]
          have e_rec : parseElems fuel (serElems (x :: xs') ++ ']' :: rest) =
              some (x :: xs', rest) := by
            refine ih2 (x :: xs') rest (by simp) ?_
            simp only [jweight] at hw
            omega
          simp [e0, List.isPrefixOf, e_cond, e_rec]
      | obj ms =>
        have hshape : serJson (.obj ms) ++ rest = '{' :: (serMembers ms ++ '}' :: rest) := by
          show ('{' :: (serMembers ms ++ ['}'])) ++ rest = _
          simp
        rw [hshape, parseVal.eq_def]
        cases ms with
        | nil =>
          simp [serMembers, skipWs, isWsChar, List.isPrefixOf]
        | cons m ms' =>
          obtain ⟨k, v⟩ := m
          have hmm0 : ∃ t0, serMembers ((k, v) :: ms') = '"' :: t0 := by
            cases ms' with
            | nil =>
              exact ⟨serStrBody k ++ '"' :: ':' :: serJson v, by simp [serMembers]⟩
            | cons m2 ms'' =>
              exact ⟨(serStrBody k ++ '"' :: ':' :: serJson v) ++
                ',' :: serMembers (m2 :: ms''), by simp [serMembers]⟩
          obtain ⟨t0, hct0⟩ := hmm0
          have e0 : skipWs ('{' :: (serMembers ((k, v) :: ms') ++ '}' :: rest)) =
              '{' :: (serMembers ((k, v) :: ms') ++ '}' :: rest) :=
            skipWs_cons_not_ws '{' _ (by decide)
          have e_skip : skipWs (serMembers ((k, v) :: ms') ++ '}' :: rest) =
              serMembers ((k, v) :: ms') ++ '}' :: rest := by
            rw [hct0, List.cons_append]
            exact skipWs_cons_not_ws '"' _ (by decide)
          have e_head : (serMembers ((k, v) :: ms') ++ '}' :: rest).head? = some '"' := by
            rw [hct0, List.cons_append]
            rfl
          have e_cond : ((skipWs (serMembers ((k, v) :: ms') ++ '}' :: rest)).head? =
              some '}') = False := by
            rw [e_skip, e_head]
            simp
          have e_rec : parseMembers fuel (serMembers ((k, v) :: ms') ++ '}' :: rest) =
              some ((k, v) :: ms', rest) := by
            refine ih3 ((k, v) :: ms') rest (by simp) ?_
            simp only [jweight] at hw
            omega
          simp [e0, List.isPrefixOf, e_cond, e_rec]
    · intro xs rest hne hw
      cases xs with
      | nil => exact absurd rfl hne
      | cons x xs' =>
        rw [parseElems.eq_def]
        cases xs' with
        | nil =>
          rw [lweight_cons, lweight_nil] at hw
          have hv := ih1 x (']' :: rest) (by omega) (by rfl)
          have hshape : serElems [x] ++ ']' :: rest = serJson x ++ ']' :: rest := by
            simp [serElems]
          rw [hshape]
          simp [hv, skipWs, isWsChar]
        | cons y ys =>
          rw [lweight_cons] at hw
          have hv := ih1 x (',' :: (serElems (y :: ys) ++ ']' :: rest))
            (by omega) (by rfl)
          have hshape : serElems (x :: y :: ys) ++ ']' :: rest =
              serJson x ++ ',' :: (serElems (y :: ys) ++ ']' :: rest) := by
            simp [serElems]
          rw [hshape]
          have hrec := ih2 (y :: ys) rest (by simp) (by omega)
          simp [hv, skipWs, isWsChar, hrec]
    · intro ms rest hne hw
      cases ms with
      | nil => exact absurd rfl hne
      | cons m ms' =>
        obtain ⟨k, v⟩ := m
        rw [parseMembers.eq_def]
        cases ms' with
        | nil =>
          rw [mweight_cons, mweight_nil] at hw
          have hshape : serMembers [(k, v)] ++ '}' :: rest =
              '"' :: (serStrBody k ++ '"' :: (':' :: (serJson v ++ '}' :: rest))) := by
            simp [serMembers]
          have hk : parseStrBody (serStrBody k ++ '"' :: (':' :: (serJson v ++ '}' :: rest))) =
              some (k, ':' :: (serJson v ++ '}' :: rest)) :=
            parseStrBody_roundtrip k _
          have hv := ih1 v ('}' :: rest) (by omega) (by rfl)
          rw [hshape]
          simp [skipWs, isWsChar, hk, hv]
        | cons m2 ms'' =>
          rw [mweight_cons] at hw
          have hshape : serMembers ((k, v) :: m2 :: ms'') ++ '}' :: rest =
              '"' :: (serStrBody k ++ '"' :: (':' :: (serJson v ++
                ',' :: (serMembers (m2 :: ms'') ++ '}' :: rest)))) := by
            simp [serMembers]
          have hk : parseStrBody (serStrBody k ++ '"' :: (':' :: (serJson v ++
              ',' :: (serMembers (m2 :: ms'') ++ '}' :: rest)))) =
              some (k, ':' :: (serJson v ++ ',' :: (serMembers (m2 :: ms'') ++ '}' :: rest))) :=
            parseStrBody_roundtrip k _
          have hv := ih1 v (',' :: (serMembers (m2 :: ms'') ++ '}' :: rest))
            (by omega) (by rfl)
          have hrec := ih3 (m2 :: ms'') rest (by simp) (by omega)
          rw [hshape]
          simp [skipWs, isWsChar, hk, hv, hrec]

/-! `json.loads` of the canonical serialization, and the cleaning steps on
fenced and bare serialized arrays. -/

theorem parseJson_serJson (a : Json) : parseJson (serJson a) = some a := by
  unfold parseJson
  have h1 := (parse_ser_roundtrip ((serJson a).length + 1)).1 a []
    (by have := jweight_le_serLen a; omega) (by rfl)
  rw [List.append_nil] at h1
  rw [h1]
  simp [skipWs]

theorem splitFence_triple (rest : List Char) :
    splitFence ('`' :: '`' :: '`' :: rest) = [] :: splitFence rest := by
  rw [splitFence.eq_def]
  simp

theorem splitFence_nil : splitFence [] = [[]] := by
  rw [splitFence.eq_def]

theorem splitFence_cons_ne (c : Char) (rest : List Char)
    (h : fenceChars.isPrefixOf (c :: rest) = false) :
    splitFence (c :: rest) = consHead c (splitFence rest) := by
  rw [splitFence.eq_def]
  split
  · rename_i rest' heq
    exfalso
    rw [heq] at h
    simp [fenceChars, List.isPrefixOf] at h
  · rename_i c1 rest1 _hne heq
    obtain ⟨rfl, rfl⟩ : c = c1 ∧ rest = rest1 := by
      injection heq with h1 h2
      exact ⟨h1, h2⟩
    rfl
  · rename_i heq
    exact absurd heq (by simp)

theorem consHead_cons (c : Char) (p : List Char) (ps : List (List Char)) :
    consHead c (p :: ps) = (c :: p) :: ps := rfl

theorem listHasInfix_cons_eq (pat : List Char) (c : Char) (rest : List Char) :
    listHasInfix pat (c :: rest) =
      (pat.isPrefixOf (c :: rest) || listHasInfix pat rest) := by
  rw [listHasInfix.eq_def]

theorem fence_isPrefixOf_cons_ne (c : Char) (X : List Char) (h : c ≠ '`') :
    fenceChars.isPrefixOf (c :: X) = false :=
  isPrefixOf_cons_ne '`' c _ _ h

theorem hasInfix_fence_prepend (pre s : List Char)
    (h : pre.all (fun c => !(c = '`')) = true) :
    listHasInfix fenceChars (pre ++ s) = listHasInfix fenceChars s := by
  induction pre with
  | nil => simp
  | cons c p ih =>
    simp only [List.all_cons, Bool.and_eq_true] at h
    have hc : c ≠ '`' := by
      intro e
      rw [e] at h
      exact absurd h.1 (by decide)
    rw [List.cons_append, listHasInfix_cons_eq,
      fence_isPrefixOf_cons_ne c _ hc, ih h.2]
    simp

theorem hasInfix_fence_all_nonbt (s : List Char)
    (h : s.all (fun c => !(c = '`')) = true) :
    listHasInfix fenceChars s = false := by
  induction s with
  | nil => rfl
  | cons c t ih =>
    simp only [List.all_cons, Bool.and_eq_true] at h
    have hc : c ≠ '`' := by
      intro e
      rw [e] at h
      exact absurd h.1 (by decide)
    rw [listHasInfix_cons_eq, fence_isPrefixOf_cons_ne c _ hc, ih h.2]
    rfl

theorem isPrefixOf_ticks_append : ∀ (pat : List Char),
    pat.all (fun c => c == '`') = true →
    ∀ (s suf : List Char), suf.all (fun c => !(c = '`')) = true →
      pat.isPrefixOf (s ++ suf) = true → pat.isPrefixOf s = true := by
  intro pat
  induction pat with
  | nil => intro _ s suf _ _; simp [List.isPrefixOf]
  | cons p ps ih =>
    intro hp s suf hsuf hpre
    simp only [List.all_cons, Bool.and_eq_true, beq_iff_eq] at hp
    obtain ⟨rfl, hps⟩ := hp
    cases s with
    | nil =>
      exfalso
      cases suf with
      | nil => simp [List.isPrefixOf] at hpre
      | cons d suf' =>
        simp only [List.all_cons, Bool.and_eq_true] at hsuf
        have hd : d ≠ '`' := by
          intro e
          rw [e] at hsuf
          exact absurd hsuf.1 (by decide)
        rw [List.nil_append] at hpre
        rw [show (('`' :: ps).isPrefixOf (d :: suf')) =
          ((('`' : Char) == d) && ps.isPrefixOf suf') from rfl] at hpre
        simp only [Bool.and_eq_true, beq_iff_eq] at hpre
        exact hd hpre.1.symm
    | cons d s' =>
      simp only [List.cons_append, List.isPrefixOf, Bool.and_eq_true] at hpre ⊢
      exact ⟨hpre.1, ih hps s' suf hsuf hpre.2⟩

theorem hasInfix_fence_append_nonbt (s suf : List Char)
    (hsuf : suf.all (fun c => !(c = '`')) = true)
    (hs : listHasInfix fenceChars s = false) :
    listHasInfix fenceChars (s ++ suf) = false := by
  induction s with
  | nil =>
    rw [List.nil_append]
    exact hasInfix_fence_all_nonbt suf hsuf
  | cons c t ih =>
    rw [listHasInfix_cons_eq, Bool.or_eq_false_iff] at hs
    rw [List.cons_append, listHasInfix_cons_eq, Bool.or_eq_false_iff]
    refine ⟨?_, ih hs.2⟩
    cases hpre : fenceChars.isPrefixOf (c :: (t ++ suf)) with
    | false => rfl
    | true =>
      exfalso
      have h2 : fenceChars.isPrefixOf ((c :: t) ++ suf) = true := by
        rwa [List.cons_append]
      have h3 := isPrefixOf_ticks_append fenceChars (by decide) (c :: t) suf hsuf h2
      rw [hs.1] at h3
      exact Bool.noConfusion h3

theorem splitFence_mid_fence : ∀ (mid : List Char) (e : Char),
    listHasInfix fenceChars (mid ++ [e]) = false → e ≠ '`' →
    splitFence ((mid ++ [e]) ++ fenceChars) = [mid ++ [e], []] := by
  intro mid
  induction mid with
  | nil =>
    intro e h he
    simp only [List.nil_append, List.singleton_append]
    have hpre : fenceChars.isPrefixOf (e :: fenceChars) = false :=
      fence_isPrefixOf_cons_ne e _ he
    rw [splitFence_cons_ne e fenceChars hpre]
    rw [show fenceChars = '`' :: '`' :: '`' :: [] from rfl, splitFence_triple,
      splitFence_nil]
    rfl
  | cons d mid' ih =>
    intro e h he
    have hsh : ((d :: mid') ++ [e]) ++ fenceChars =
        d :: ((mid' ++ [e]) ++ fenceChars) := by simp
    rw [hsh]
    have hrec : listHasInfix fenceChars (mid' ++ [e]) = false := by
      rw [List.cons_append, listHasInfix_cons_eq, Bool.or_eq_false_iff] at h
      exact h.2
    have hnp : fenceChars.isPrefixOf (d :: ((mid' ++ [e]) ++ fenceChars)) = false := by
      cases hd : decide (d = '`') with
      | false =>
        exact isPrefixOf_cons_ne '`' d _ _ (by simpa using hd)
      | true =>
        have hdd : d = '`' := by simpa using hd
        subst hdd
        rcases mid' with _ | ⟨m1, mrest⟩
        · simp only [List.nil_append, List.cons_append]
          show (('`' :: '`' :: '`' :: []).isPrefixOf ('`' :: e :: fenceChars)) = false
          simp only [List.isPrefixOf, Bool.and_eq_true, beq_iff_eq]
          simp
          exact fun hc => he hc.symm
        · rcases mrest with _ | ⟨m2, mrest2⟩
          · simp only [List.cons_append, List.singleton_append]
            show (('`' :: '`' :: '`' :: []).isPrefixOf ('`' :: m1 :: e :: fenceChars)) = false
            simp [List.isPrefixOf]
            intro _
            exact fun hc => he hc.symm
          · rw [List.cons_append, listHasInfix_cons_eq, Bool.or_eq_false_iff] at h
            have h1 := h.1
            simp only [List.cons_append] at h1 ⊢
            cases hm1 : decide (m1 = '`') with
            | false =>
              show (('`' :: '`' :: '`' :: []).isPrefixOf
                ('`' :: ((m1 :: m2 :: mrest2) ++ [e] ++ fenceChars))) = false
              have hm1' : m1 ≠ '`' := by simpa using hm1
              simp [List.isPrefixOf]
              exact fun h' => absurd h'.symm hm1'
            | true =>
              have hm1' : m1 = '`' := by simpa using hm1
              subst hm1'
              cases hm2 : decide (m2 = '`') with
              | false =>
                have hm2' : m2 ≠ '`' := by simpa using hm2
                show (('`' :: '`' :: '`' :: []).isPrefixOf
                  ('`' :: '`' :: m2 :: (mrest2 ++ [e] ++ fenceChars))) = false
                simp [List.isPrefixOf]
                exact fun h' => hm2' h'.symm
              | true =>
                have hm2' : m2 = '`' := by simpa using hm2
                subst hm2'
                exfalso
                have htrue : (fenceChars.isPrefixOf
                    ('`' :: '`' :: '`' :: (mrest2 ++ [e]))) = true := by
                  simp [fenceChars, List.isPrefixOf]
                rw [htrue] at h1
                exact Bool.noConfusion h1
    rw [splitFence_cons_ne d _ hnp, ih e hrec he]
    rfl

theorem dropWhile_id_of_head (p : Char → Bool) (xs : List Char)
    (h : ∀ c, xs.head? = some c → p c = false) : xs.dropWhile p = xs := by
  cases xs with
  | nil => rfl
  | cons c t => simp [List.dropWhile_cons, h c rfl]

theorem pyStripChars_id (xs : List Char)
    (h1 : ∀ c, xs.head? = some c → isWsChar c = false)
    (h2 : ∀ c, xs.getLast? = some c → isWsChar c = false) :
    pyStripChars xs = xs := by
  unfold pyStripChars
  rw [dropWhile_id_of_head _ _ h1]
  rw [dropWhile_id_of_head _ _ (fun c hc => h2 c (by rwa [← List.head?_reverse]))]
  exact List.reverse_reverse xs

theorem pyStripChars_head_not_ws (c : Char) (t : List Char)
    (h : isWsChar c = false) : ∃ t', pyStripChars (c :: t) = c :: t' := by
  unfold pyStripChars
  rw [List.dropWhile_cons, if_neg (by simp [h])]
  rw [List.reverse_cons, List.dropWhile_append]
  by_cases he : (t.reverse.dropWhile isWsChar).isEmpty
  · rw [if_pos he]
    exact ⟨[], by simp [List.dropWhile_cons, h]⟩
  · rw [if_neg he]
    rw [List.reverse_append]
    exact ⟨(t.reverse.dropWhile isWsChar).reverse, by simp⟩

theorem rstripToRB_concat (pre tail : List Char)
    (h : tail.all (fun c => !(c = ']')) = true) :
    rstripToRB (pre ++ ']' :: tail) = pre ++ [']'] := by
  unfold rstripToRB
  have hrev : (pre ++ ']' :: tail).reverse = tail.reverse ++ ']' :: pre.reverse := by
    simp
  rw [hrev, List.dropWhile_append]
  have hdrop : tail.reverse.dropWhile (fun c => !(c = ']')) = [] := by
    rw [List.dropWhile_eq_nil_iff]
    intro x hx
    have hx' : x ∈ tail := by simpa using hx
    have := List.all_eq_true.mp h x hx'
    simpa using this
  rw [hdrop]
  simp only [List.isEmpty_nil, if_true]
  rw [List.dropWhile_cons, if_neg (by simp)]
  simp

theorem dropToLB_head_lb (t : List Char) : dropToLB ('[' :: t) = '[' :: t := by
  unfold dropToLB
  rw [if_pos (by simp), List.dropWhile_cons, if_neg (by simp)]


theorem cleanRawChars_eq (raw : List Char) :
    cleanRawChars raw =
      dropToLB (rstripToRB (
        if fenceChars.isPrefixOf (pyStripChars raw) then
          match (splitFence (pyStripChars raw)).find?
              (fun p => startsBracket (pyStripChars p)) with
          | some p => pyStripChars p
          | none => pyStripChars raw
        else pyStripChars raw)) := rfl

theorem cleanRaw_bare (xs : List Json) :
    cleanRawChars (serJson (Json.arr xs)) = serJson (Json.arr xs) := by
  have hshape : serJson (Json.arr xs) = '[' :: (serElems xs ++ [']']) := rfl
  have hstrip : pyStripChars (serJson (Json.arr xs)) = serJson (Json.arr xs) := by
    apply pyStripChars_id
    · intro c hc
      rw [hshape] at hc
      simp only [List.head?_cons, Option.some.injEq] at hc
      subst hc
      decide
    · intro c hc
      rw [hshape, show ('[' :: (serElems xs ++ [']'])) =
        ('[' :: serElems xs) ++ [']'] from by simp, List.getLast?_concat] at hc
      simp only [Option.some.injEq] at hc
      subst hc
      decide
  rw [cleanRawChars_eq, hstrip]
  rw [if_neg (by
    rw [hshape, fence_isPrefixOf_cons_ne '[' _ (by decide)]
    simp)]
  have hr : rstripToRB (serJson (Json.arr xs)) = serJson (Json.arr xs) := by
    rw [hshape, show ('[' :: (serElems xs ++ [']'])) =
      ('[' :: serElems xs) ++ ']' :: [] from by simp]
    rw [rstripToRB_concat _ _ (by simp)]
  rw [hr, hshape, dropToLB_head_lb]

theorem dropToLB_concrete (T : List Char) :
    dropToLB (fenceChars ++ "json\n".data ++ ('[' :: T)) = '[' :: T := by
  unfold dropToLB
  rw [if_pos (by simp [fenceChars])]
  simp [fenceChars, List.dropWhile_cons]

theorem cleanRaw_fenced (xs : List Json)
    (h : listHasInfix fenceChars (serJson (Json.arr xs)) = false) :
    cleanRawChars (fenceChars ++ ("json\n".data ++ serJson (Json.arr xs) ++ ['\n'])
        ++ fenceChars) = serJson (Json.arr xs) := by
  have hshape : serJson (Json.arr xs) = '[' :: (serElems xs ++ [']']) := rfl
  set ser := serJson (Json.arr xs) with hser
  set mid := "json\n".data ++ ser ++ ['\n'] with hmid
  set raw := fenceChars ++ mid ++ fenceChars with hraw
  have hstrip : pyStripChars raw = raw := by
    apply pyStripChars_id
    · intro c hc
      rw [hraw] at hc
      simp only [fenceChars, List.cons_append, List.head?_cons,
        Option.some.injEq] at hc
      subst hc
      decide
    · intro c hc
      rw [hraw, show fenceChars ++ mid ++ fenceChars =
        (fenceChars ++ mid ++ ['`', '`']) ++ ['`'] from by simp [fenceChars],
        List.getLast?_concat] at hc
      simp only [Option.some.injEq] at hc
      subst hc
      decide
  have hmidnt : listHasInfix fenceChars mid = false := by
    rw [hmid, List.append_assoc, hasInfix_fence_prepend _ _ (by decide)]
    exact hasInfix_fence_append_nonbt ser ['\n'] (by decide) h
  have hsplit : splitFence raw = [[], mid, []] := by
    have h1 : splitFence raw = [] :: splitFence (mid ++ fenceChars) := by
      rw [hraw, List.append_assoc]
      exact splitFence_triple (mid ++ fenceChars)
    have h2 : splitFence (mid ++ fenceChars) = [mid, []] := by
      have hm2 : mid = ("json\n".data ++ ser) ++ ['\n'] := by
        rw [hmid, List.append_assoc]
      rw [hm2]
      refine splitFence_mid_fence ("json\n".data ++ ser) '\n' ?_ (by decide)
      rw [← hm2]
      exact hmidnt
    rw [h1, h2]
  have hfind : (splitFence raw).find?
      (fun p => startsBracket (pyStripChars p)) = none := by
    rw [hsplit]
    have hp2 : startsBracket (pyStripChars mid) = false := by
      have hj : ∃ t', pyStripChars mid = 'j' :: t' := by
        rw [hmid]
        exact pyStripChars_head_not_ws 'j' _ (by decide)
      obtain ⟨t', ht'⟩ := hj
      rw [ht']
      simp [startsBracket]
    have hp1 : startsBracket (pyStripChars ([] : List Char)) = false := rfl
    simp [List.find?, hp1, hp2]
  rw [cleanRawChars_eq, hstrip]
  rw [if_pos (by rw [hraw]; simp [fenceChars, List.isPrefixOf])]
  rw [hfind]
  have hr : rstripToRB raw = fenceChars ++ "json\n".data ++ ser := by
    have hx : raw = (fenceChars ++ "json\n".data ++ ('[' :: serElems xs)) ++
        ']' :: (['\n'] ++ fenceChars) := by
      rw [hraw, hmid, hshape]
      simp [fenceChars]
    rw [hx, rstripToRB_concat _ _ (by decide)]
    rw [hshape]
    simp
  rw [hr]
  rw [hshape]
  exact dropToLB_concrete _

/-- C7 (amended): for every JSON array value whose canonical serialization
does not contain the fence marker ` ``` `, the response parser extracts and
returns the array itself, both from the bare serialized text and from the
text wrapped in ` ```json ... ``` ` fence markers.  (The counterexample shows
the no-fence-marker proviso is necessary.) -/
theorem try_parse_fenced_eq_bare (xs : List Json)
    (h : listHasInfix fenceChars (serJson (Json.arr xs)) = false) :
    try_parse_json_from_raw ⟨serJson (Json.arr xs)⟩ = some (Json.arr xs) ∧
    try_parse_json_from_raw
        ("```json\n" ++ (⟨serJson (Json.arr xs)⟩ : String) ++ "\n```") =
      some (Json.arr xs) := by
  constructor
  · show parseJson (cleanRawChars (String.data ⟨serJson (Json.arr xs)⟩)) = _
    rw [show String.data ⟨serJson (Json.arr xs)⟩ = serJson (Json.arr xs) from rfl]
    rw [cleanRaw_bare xs]
    exact parseJson_serJson (Json.arr xs)
  · show parseJson (cleanRawChars
      (String.data ("```json\n" ++ (⟨serJson (Json.arr xs)⟩ : String) ++ "\n```"))) = _
    have hd : ("```json\n" ++ (⟨serJson (Json.arr xs)⟩ : String) ++ "\n```").data =
        fenceChars ++ ("json\n".data ++ serJson (Json.arr xs) ++ ['\n'])
          ++ fenceChars := by
      rw [String.data_append, String.data_append]
      rw [show "```json\n".data = fenceChars ++ "json\n".data from by decide]
      rw [show "\n```".data = '\n' :: fenceChars from by decide]
      rw [show String.data ⟨serJson (Json.arr xs)⟩ = serJson (Json.arr xs) from rfl]
      simp [List.append_assoc]
    rw [hd, cleanRaw_fenced xs h]
    exact parseJson_serJson (Json.arr xs)

/-- Witness for `try_parse_fenced_eq_bare` at the array `["ok", null, true]`. -/
theorem try_parse_fenced_eq_bare_witness :
    try_parse_json_from_raw
        ⟨serJson (Json.arr [Json.str "ok".data, Json.null, Json.bool true])⟩ =
      some (Json.arr [Json.str "ok".data, Json.null, Json.bool true]) ∧
    try_parse_json_from_raw ("```json\n" ++
        (⟨serJson (Json.arr [Json.str "ok".data, Json.null, Json.bool true])⟩ : String)
        ++ "\n```") =
      some (Json.arr [Json.str "ok".data, Json.null, Json.bool true]) :=
  try_parse_fenced_eq_bare [Json.str "ok".data, Json.null, Json.bool true] (by decide)
